import Mathlib

/-!
Shallow embedding of the Othello rules engine from `othello.py`
(board representation, legal-move enumeration with disc-flip computation,
move application, greedy AI selection, scoring, and the turn/termination
state machine of `main`).

Conventions of the embedding:
* Python cell strings "B" / "W" / "." become the inductive type `Cell`.
* A board is a total function `Int → Int → Cell`; the Python code only ever
  reads indices guarded by `on_board`, so values outside `[0,8) × [0,8)` are
  irrelevant (and `init_board` maps them to `EMPTY`).
* The Python `while` walk along a ray is realised with explicit fuel
  `BOARD_SIZE`; a ray starting one step away from an on-board cell stays on
  the board for at most `BOARD_SIZE - 1` steps, so the fuel never runs out
  before the loop guard fails, and the fueled function computes exactly the
  Python loop.
* `random.choice` in `greedy_choice` is modelled by an extra parameter
  `k : Nat` selecting index `k % length` of the list of maximal moves; every
  possible outcome of the random draw is some `k`.
* The event loop of `main` is modelled by the step relation `Step` on
  `GameState`: a pass, a game-over transition, or the application of one
  legal move (the human's click and the computer's greedy pick are both
  instances of choosing a member of the legal-move map).
-/

inductive Cell where
  | E : Cell
  | B : Cell
  | W : Cell
deriving DecidableEq, Repr

def EMPTY : Cell := Cell.E

def BLACK : Cell := Cell.B

def WHITE : Cell := Cell.W

def BOARD_SIZE : Nat := 8

abbrev Move := Int × Int

abbrev Board := Int → Int → Cell

/-- Python: `0 <= x < BOARD_SIZE and 0 <= y < BOARD_SIZE`. -/
def on_board (x y : Int) : Bool :=
  decide (0 ≤ x ∧ x < (BOARD_SIZE : Int) ∧ 0 ≤ y ∧ y < (BOARD_SIZE : Int))

/-- Python: `WHITE if player == BLACK else BLACK`. -/
def opponent (player : Cell) : Cell :=
  if player = BLACK then WHITE else BLACK

/-- Python `init_board`: empty board, then the four centre cells are seeded
with `mid = BOARD_SIZE // 2 = 4`. -/
def init_board : Board := fun x y =>
  if x = 3 ∧ y = 3 then WHITE
  else if x = 4 ∧ y = 4 then WHITE
  else if x = 3 ∧ y = 4 then BLACK
  else if x = 4 ∧ y = 3 then BLACK
  else EMPTY

/-- The eight ray directions probed by `valid_moves`, in source order. -/
def directions : List (Int × Int) :=
  [(-1, -1), (-1, 0), (-1, 1),
   (0, -1), (0, 1),
   (1, -1), (1, 0), (1, 1)]

/-- The Python `while on_board(nx, ny) and board[nx][ny] == opp` loop:
returns the recorded path together with the final `(nx, ny)` coordinate at
which the loop stopped.  `fuel` bounds the number of iterations; callers
pass `BOARD_SIZE`, which the loop can never exhaust (see module comment). -/
def walk_ray (board : Board) (opp : Cell) (dx dy : Int) :
    Nat → Int → Int → List Move × Move
  | 0, nx, ny => ([], (nx, ny))
  | fuel + 1, nx, ny =>
    if on_board nx ny = true ∧ board nx ny = opp then
      let r := walk_ray board opp dx dy fuel (nx + dx) (ny + dy)
      ((nx, ny) :: r.1, r.2)
    else ([], (nx, ny))

/-- The contribution of one direction `d` to the flips of a candidate move
`(x, y)`: the walked path when it is non-empty and terminates on a disc of
`player`'s colour (the bracketing test of `valid_moves`), otherwise nothing. -/
def dir_flips (board : Board) (player : Cell) (x y : Int) (d : Int × Int) :
    List Move :=
  let r := walk_ray board (opponent player) d.1 d.2 BOARD_SIZE (x + d.1) (y + d.2)
  if r.1 ≠ [] ∧ on_board r.2.1 r.2.2 = true ∧ board r.2.1 r.2.2 = player then
    r.1
  else []

/-- The inner loop of `valid_moves` over the eight directions, accumulating
`flips.extend(path)` for every bracketed direction. -/
def cell_flips (board : Board) (player : Cell) (x y : Int) : List Move :=
  directions.foldl (fun flips d => flips ++ dir_flips board player x y d) []

/-- The coordinates `range(BOARD_SIZE)` of the Python double loop. -/
def coords : List Int := (List.range BOARD_SIZE).map Int.ofNat

/-- All 64 cells in the order the Python double loop visits them. -/
def all_coords : List Move := coords.flatMap fun x => coords.map fun y => (x, y)

/-- Python `valid_moves`: the mapping (as an association list in insertion
order) from every empty cell with a non-empty flip list to that flip list. -/
def valid_moves (board : Board) (player : Cell) : List (Move × List Move) :=
  all_coords.filterMap fun m =>
    if board m.1 m.2 = EMPTY then
      let flips := cell_flips board player m.1 m.2
      if flips ≠ [] then some (m, flips) else none
    else none

/-- A single Python assignment `board[x][y] = player`. -/
def set_cell (board : Board) (m : Move) (c : Cell) : Board := fun x y =>
  if x = m.1 ∧ y = m.2 then c else board x y

/-- Python `make_move`: place the disc, then flip each captured disc. -/
def make_move (board : Board) (player : Cell) (move : Move)
    (flips : List Move) : Board :=
  flips.foldl (fun b f => set_cell b f player) (set_cell board move player)

/-- Python `greedy_choice`; `k` models the draw of `random.choice` (the
chosen index into `best_moves` modulo its length). -/
def greedy_choice (moves : List (Move × List Move)) (k : Nat) : Option Move :=
  if moves.isEmpty then none
  else
    let max_flips := (moves.map fun p => p.2.length).foldl max 0
    let best_moves :=
      (moves.filter fun p => decide (p.2.length = max_flips)).map Prod.fst
    best_moves.get? (k % best_moves.length)

/-- Python `scores`: the number of `BLACK` cells and of `WHITE` cells. -/
def scores (board : Board) : Nat × Nat :=
  (all_coords.countP fun q => decide (board q.1 q.2 = BLACK),
   all_coords.countP fun q => decide (board q.1 q.2 = WHITE))

/-- The total number of discs on the board. -/
def total_discs (board : Board) : Nat := (scores board).1 + (scores board).2

/-- The state carried through the `while running` loop of `main`: the board,
the side to move, the consecutive-pass counter `skipped`, and whether the
loop was left through the two-pass `break`. -/
structure GameState where
  board : Board
  player : Cell
  skipped : Nat
  over : Bool

/-- One iteration of the turn loop of `main`, as a relation (the human's
click and the computer's greedy pick are both modelled by choosing some
member of the legal-move map). -/
inductive Step : GameState → GameState → Prop where
  | pass (s : GameState) :
      s.over = false →
      valid_moves s.board s.player = [] →
      s.skipped + 1 ≠ 2 →
      Step s ⟨s.board, opponent s.player, s.skipped + 1, false⟩
  | gameOver (s : GameState) :
      s.over = false →
      valid_moves s.board s.player = [] →
      s.skipped + 1 = 2 →
      Step s ⟨s.board, s.player, s.skipped + 1, true⟩
  | move (s : GameState) (m : Move) (flips : List Move) :
      s.over = false →
      (m, flips) ∈ valid_moves s.board s.player →
      Step s ⟨make_move s.board s.player m flips, opponent s.player, 0, false⟩

/-- The state at the top of the loop: initial board, Black to move. -/
def init_state : GameState := ⟨init_board, BLACK, 0, false⟩

/-- States reachable by the turn loop from the initial state. -/
def Reachable (s : GameState) : Prop := Relation.ReflTransGen Step init_state s

/-! ### Properties of the ray walk -/

theorem walk_ray_get? (board : Board) (opp : Cell) (dx dy : Int) :
    ∀ (fuel : Nat) (nx ny : Int) (i : Nat) (q : Move),
      ((walk_ray board opp dx dy fuel nx ny).1).get? i = some q →
      q = (nx + i * dx, ny + i * dy) ∧
        on_board q.1 q.2 = true ∧ board q.1 q.2 = opp := by
  intro fuel
  induction fuel with
  | zero => intro nx ny i q hq; simp [walk_ray] at hq
  | succ fuel ih =>
    intro nx ny i q hq
    by_cases h : on_board nx ny = true ∧ board nx ny = opp
    · simp only [walk_ray] at hq
      rw [if_pos h] at hq
      match i with
      | 0 =>
        simp only [List.get?] at hq
        obtain rfl : q = (nx, ny) := by
          injection hq with h'
          exact h'.symm
        refine ⟨by simp, h.1, h.2⟩
      | i + 1 =>
        simp only [List.get?] at hq
        obtain ⟨h1, h2, h3⟩ := ih (nx + dx) (ny + dy) i q hq
        refine ⟨?_, h2, h3⟩
        rw [h1]
        simp only [Prod.mk.injEq]
        constructor <;> push_cast <;> ring
    · simp only [walk_ray] at hq
      rw [if_neg h] at hq
      simp at hq

theorem walk_ray_mem (board : Board) (opp : Cell) (dx dy : Int)
    (fuel : Nat) (nx ny : Int) {q : Move}
    (hq : q ∈ (walk_ray board opp dx dy fuel nx ny).1) :
    ∃ i : Nat, i < ((walk_ray board opp dx dy fuel nx ny).1).length ∧
      q = (nx + i * dx, ny + i * dy) ∧
      on_board q.1 q.2 = true ∧ board q.1 q.2 = opp := by
  obtain ⟨i, hi⟩ := List.get?_of_mem hq
  obtain ⟨hlt, -⟩ := List.get?_eq_some.mp hi
  exact ⟨i, hlt, walk_ray_get? board opp dx dy fuel nx ny i q hi⟩

theorem walk_ray_fin (board : Board) (opp : Cell) (dx dy : Int) :
    ∀ (fuel : Nat) (nx ny : Int),
      (walk_ray board opp dx dy fuel nx ny).2 =
        (nx + ((walk_ray board opp dx dy fuel nx ny).1).length * dx,
         ny + ((walk_ray board opp dx dy fuel nx ny).1).length * dy) := by
  intro fuel
  induction fuel with
  | zero => intro nx ny; simp [walk_ray]
  | succ fuel ih =>
    intro nx ny
    by_cases h : on_board nx ny = true ∧ board nx ny = opp
    · simp only [walk_ray]
      rw [if_pos h]
      simp only [List.length_cons]
      rw [ih (nx + dx) (ny + dy)]
      simp only [Prod.mk.injEq]
      constructor <;> push_cast <;> ring
    · simp only [walk_ray]
      rw [if_neg h]
      simp

theorem walk_ray_nodup (board : Board) (opp : Cell) {dx dy : Int}
    (hd : ¬(dx = 0 ∧ dy = 0)) :
    ∀ (fuel : Nat) (nx ny : Int),
      ((walk_ray board opp dx dy fuel nx ny).1).Nodup := by
  intro fuel
  induction fuel with
  | zero => intro nx ny; simp [walk_ray]
  | succ fuel ih =>
    intro nx ny
    by_cases h : on_board nx ny = true ∧ board nx ny = opp
    · simp only [walk_ray]
      rw [if_pos h]
      refine List.nodup_cons.mpr ⟨?_, ih (nx + dx) (ny + dy)⟩
      intro hmem
      obtain ⟨i, -, hq, -, -⟩ := walk_ray_mem board opp dx dy fuel (nx + dx) (ny + dy) hmem
      rw [Prod.mk.injEq] at hq
      obtain ⟨ex, ey⟩ := hq
      have hx : ((i : Int) + 1) * dx = 0 := by linear_combination -ex
      have hy : ((i : Int) + 1) * dy = 0 := by linear_combination -ey
      have hi1 : ((i : Int) + 1) ≠ 0 := by positivity
      exact hd ⟨(mul_eq_zero.mp hx).resolve_left hi1,
        (mul_eq_zero.mp hy).resolve_left hi1⟩
    · simp only [walk_ray]
      rw [if_neg h]
      simp

/-! ### Bracketing -/

/-- The bracketing property claimed of every flip `f` of a legal move `m`:
`f` lies on one of the eight rays from `m`, every cell of the ray segment up
to `len` holds the opponent's colour, and the segment is terminated by a
disc of the player's own colour. -/
def BracketedFlip (board : Board) (player : Cell) (m f : Move) : Prop :=
  ∃ d ∈ directions, ∃ len : Nat, 1 ≤ len ∧
    (∀ j : Nat, 1 ≤ j → j ≤ len →
        board (m.1 + j * d.1) (m.2 + j * d.2) = opponent player ∧
        on_board (m.1 + j * d.1) (m.2 + j * d.2) = true) ∧
    board (m.1 + (len + 1) * d.1) (m.2 + (len + 1) * d.2) = player ∧
    on_board (m.1 + (len + 1) * d.1) (m.2 + (len + 1) * d.2) = true ∧
    ∃ k : Nat, 1 ≤ k ∧ k ≤ len ∧ f = (m.1 + k * d.1, m.2 + k * d.2)

theorem dir_flips_mem {board : Board} {player : Cell} {x y : Int}
    {d : Int × Int} {f : Move} (hf : f ∈ dir_flips board player x y d) :
    ∃ k : Nat, 1 ≤ k ∧ f = (x + k * d.1, y + k * d.2) ∧
      on_board f.1 f.2 = true ∧ board f.1 f.2 = opponent player := by
  unfold dir_flips at hf
  dsimp only at hf
  split at hf
  case isFalse => simp at hf
  case isTrue h =>
    obtain ⟨i, -, hq, hob, hcell⟩ :=
      walk_ray_mem board (opponent player) d.1 d.2 BOARD_SIZE (x + d.1) (y + d.2) hf
    refine ⟨i + 1, by omega, ?_, hob, hcell⟩
    rw [hq]
    simp only [Prod.mk.injEq]
    constructor <;> push_cast <;> ring

theorem dir_flips_bracketed {board : Board} {player : Cell} {x y : Int}
    {d : Int × Int} {f : Move} (hd : d ∈ directions)
    (hf : f ∈ dir_flips board player x y d) :
    BracketedFlip board player (x, y) f := by
  unfold dir_flips at hf
  dsimp only at hf
  split at hf
  case isFalse => simp at hf
  case isTrue h =>
    obtain ⟨hne, hob, hanchor⟩ := h
    set r := walk_ray board (opponent player) d.1 d.2 BOARD_SIZE (x + d.1) (y + d.2)
      with hr
    have hfin := walk_ray_fin board (opponent player) d.1 d.2 BOARD_SIZE
      (x + d.1) (y + d.2)
    rw [← hr] at hfin
    have hlen : 1 ≤ r.1.length := by
      rcases hl : r.1 with - | - <;> simp_all
    refine ⟨d, hd, r.1.length, hlen, ?_, ?_, ?_, ?_⟩
    · intro j hj1 hj2
      have hjl : j - 1 < r.1.length := by omega
      obtain ⟨hq1, hq2, hq3⟩ :=
        walk_ray_get? board (opponent player) d.1 d.2 BOARD_SIZE
          (x + d.1) (y + d.2) (j - 1) _ (List.get?_eq_get hjl)
      rw [hq1] at hq2 hq3
      have hco : x + d.1 + ((j - 1 : Nat) : Int) * d.1 = x + (j : Int) * d.1 := by
        have hj : ((j - 1 : Nat) : Int) = (j : Int) - 1 := by omega
        rw [hj]; ring
      have hco' : y + d.2 + ((j - 1 : Nat) : Int) * d.2 = y + (j : Int) * d.2 := by
        have hj : ((j - 1 : Nat) : Int) = (j : Int) - 1 := by omega
        rw [hj]; ring
      simp only at hq2 hq3
      rw [hco, hco'] at hq2 hq3
      exact ⟨hq3, hq2⟩
    · have e1 : r.2.1 = x + d.1 + (r.1.length : Int) * d.1 := congrArg Prod.fst hfin
      have e2 : r.2.2 = y + d.2 + (r.1.length : Int) * d.2 := congrArg Prod.snd hfin
      show board (x + ((r.1.length : Int) + 1) * d.1)
        (y + ((r.1.length : Int) + 1) * d.2) = player
      have c1 : x + ((r.1.length : Int) + 1) * d.1 = r.2.1 := by rw [e1]; ring
      have c2 : y + ((r.1.length : Int) + 1) * d.2 = r.2.2 := by rw [e2]; ring
      rw [c1, c2]
      exact hanchor
    · have e1 : r.2.1 = x + d.1 + (r.1.length : Int) * d.1 := congrArg Prod.fst hfin
      have e2 : r.2.2 = y + d.2 + (r.1.length : Int) * d.2 := congrArg Prod.snd hfin
      show on_board (x + ((r.1.length : Int) + 1) * d.1)
        (y + ((r.1.length : Int) + 1) * d.2) = true
      have c1 : x + ((r.1.length : Int) + 1) * d.1 = r.2.1 := by rw [e1]; ring
      have c2 : y + ((r.1.length : Int) + 1) * d.2 = r.2.2 := by rw [e2]; ring
      rw [c1, c2]
      exact hob
    · obtain ⟨i, hil, hq, -, -⟩ :=
        walk_ray_mem board (opponent player) d.1 d.2 BOARD_SIZE
          (x + d.1) (y + d.2) hf
      refine ⟨i + 1, by omega, by rw [← hr] at hil; omega, ?_⟩
      rw [hq]
      simp only [Prod.mk.injEq]
      constructor <;> push_cast <;> ring

/-! ### The flip accumulator and membership in the legal-move map -/

theorem foldl_append_eq {α β : Type} (g : α → List β) :
    ∀ (l : List α) (acc : List β),
      l.foldl (fun a d => a ++ g d) acc = acc ++ (l.map g).flatten := by
  intro l
  induction l with
  | nil => intro acc; simp
  | cons d l ih => intro acc; simp [ih]

theorem cell_flips_eq (board : Board) (player : Cell) (x y : Int) :
    cell_flips board player x y =
      (directions.map (dir_flips board player x y)).flatten := by
  unfold cell_flips
  rw [foldl_append_eq]
  simp

theorem mem_cell_flips {board : Board} {player : Cell} {x y : Int} {f : Move} :
    f ∈ cell_flips board player x y ↔
      ∃ d ∈ directions, f ∈ dir_flips board player x y d := by
  rw [cell_flips_eq]
  simp only [List.mem_flatten, List.mem_map]
  constructor
  · rintro ⟨l, ⟨d, hd, rfl⟩, hf⟩
    exact ⟨d, hd, hf⟩
  · rintro ⟨d, hd, hf⟩
    exact ⟨dir_flips board player x y d, ⟨d, hd, rfl⟩, hf⟩

theorem mem_valid_moves {board : Board} {player : Cell} {m : Move}
    {flips : List Move} :
    (m, flips) ∈ valid_moves board player ↔
      m ∈ all_coords ∧ board m.1 m.2 = EMPTY ∧
        flips = cell_flips board player m.1 m.2 ∧ flips ≠ [] := by
  unfold valid_moves
  rw [List.mem_filterMap]
  constructor
  · rintro ⟨a, ha, hsome⟩
    dsimp only at hsome
    by_cases h1 : board a.1 a.2 = EMPTY
    · rw [if_pos h1] at hsome
      by_cases h2 : cell_flips board player a.1 a.2 ≠ []
      · rw [if_pos h2] at hsome
        injection hsome with h3
        rw [Prod.mk.injEq] at h3
        obtain ⟨rfl, h4⟩ := h3
        exact ⟨ha, h1, h4.symm, h4 ▸ h2⟩
      · rw [if_neg h2] at hsome
        exact absurd hsome (by simp)
    · rw [if_neg h1] at hsome
      exact absurd hsome (by simp)
  · rintro ⟨ha, h1, rfl, h2⟩
    refine ⟨m, ha, ?_⟩
    dsimp only
    rw [if_pos h1, if_pos h2]

/-! ### Distinctness of the flips of one move -/

theorem directions_comp {d : Int × Int} (hd : d ∈ directions) :
    (d.1 = -1 ∨ d.1 = 0 ∨ d.1 = 1) ∧ (d.2 = -1 ∨ d.2 = 0 ∨ d.2 = 1) ∧
      ¬(d.1 = 0 ∧ d.2 = 0) := by
  fin_cases hd <;> simp

theorem sign_mul_unit {k : Int} (hk : 1 ≤ k) {d : Int}
    (hd : d = -1 ∨ d = 0 ∨ d = 1) : (k * d).sign = d := by
  have hpos : 0 < k := hk
  rcases hd with rfl | rfl | rfl
  · have : k * (-1) = -k := by ring
    rw [this, Int.sign_neg, Int.sign_eq_one_of_pos hpos]
  · rw [mul_zero, Int.sign_zero]
  · rw [mul_one, Int.sign_eq_one_of_pos hpos]

theorem dir_flips_dir_eq {board : Board} {player : Cell} {x y : Int}
    {d : Int × Int} {f : Move} (hd : d ∈ directions)
    (hf : f ∈ dir_flips board player x y d) :
    d = ((f.1 - x).sign, (f.2 - y).sign) := by
  obtain ⟨k, hk, hfe, -, -⟩ := dir_flips_mem hf
  obtain ⟨h1, h2, -⟩ := directions_comp hd
  have hk' : 1 ≤ (k : Int) := by exact_mod_cast hk
  rw [hfe]
  dsimp only
  rw [show x + (k : Int) * d.1 - x = (k : Int) * d.1 by ring,
    show y + (k : Int) * d.2 - y = (k : Int) * d.2 by ring,
    sign_mul_unit hk' h1, sign_mul_unit hk' h2]

theorem dir_flips_disjoint {board : Board} {player : Cell} {x y : Int}
    {d d' : Int × Int} (hd : d ∈ directions) (hd' : d' ∈ directions)
    (hne : d ≠ d') :
    List.Disjoint (dir_flips board player x y d)
      (dir_flips board player x y d') := by
  intro f hf hf'
  exact hne ((dir_flips_dir_eq hd hf).trans (dir_flips_dir_eq hd' hf').symm)

theorem cell_flips_nodup (board : Board) (player : Cell) (x y : Int) :
    (cell_flips board player x y).Nodup := by
  rw [cell_flips_eq, List.nodup_flatten]
  constructor
  · intro l hl
    obtain ⟨d, hd, rfl⟩ := List.mem_map.mp hl
    obtain ⟨-, -, hcomp⟩ := directions_comp hd
    unfold dir_flips
    dsimp only
    split
    · exact walk_ray_nodup board (opponent player) hcomp BOARD_SIZE _ _
    · simp
  · rw [List.pairwise_map]
    have hnd : directions.Nodup := by decide
    exact hnd.imp_of_mem fun {a b} ha hb hab => dir_flips_disjoint ha hb hab

theorem not_mem_cell_flips (board : Board) (player : Cell) (x y : Int) :
    ((x, y) : Move) ∉ cell_flips board player x y := by
  intro h
  obtain ⟨d, hd, hfd⟩ := mem_cell_flips.mp h
  obtain ⟨k, hk, hfe, -, -⟩ := dir_flips_mem hfd
  obtain ⟨-, -, hcomp⟩ := directions_comp hd
  rw [Prod.mk.injEq] at hfe
  obtain ⟨ex, ey⟩ := hfe
  have hx : (k : Int) * d.1 = 0 := by linarith [ex]
  have hy : (k : Int) * d.2 = 0 := by linarith [ey]
  have hk' : ((k : Int)) ≠ 0 := by positivity
  exact hcomp ⟨(mul_eq_zero.mp hx).resolve_left hk',
    (mul_eq_zero.mp hy).resolve_left hk'⟩

/-! ### Pointwise description of move application -/

theorem foldl_set_cell_apply (player : Cell) :
    ∀ (flips : List Move) (b : Board) (x y : Int),
      (flips.foldl (fun b f => set_cell b f player) b) x y =
        if (x, y) ∈ flips then player else b x y := by
  intro flips
  induction flips with
  | nil => intro b x y; simp
  | cons f rest ih =>
    intro b x y
    rw [List.foldl_cons, ih]
    by_cases hm : (x, y) ∈ rest
    · rw [if_pos hm, if_pos (List.mem_cons_of_mem f hm)]
    · rw [if_neg hm]
      unfold set_cell
      by_cases hf : x = f.1 ∧ y = f.2
      · rw [if_pos hf, if_pos (List.mem_cons.mpr (Or.inl (Prod.ext_iff.mpr hf)))]
      · rw [if_neg hf, if_neg ?_]
        rw [List.mem_cons]
        rintro (rfl | h)
        · exact hf ⟨rfl, rfl⟩
        · exact hm h

theorem make_move_apply (board : Board) (player : Cell) (move : Move)
    (flips : List Move) (x y : Int) :
    make_move board player move flips x y =
      if (x, y) = move ∨ (x, y) ∈ flips then player else board x y := by
  unfold make_move
  rw [foldl_set_cell_apply]
  by_cases hm : (x, y) ∈ flips
  · rw [if_pos hm, if_pos (Or.inr hm)]
  · rw [if_neg hm]
    unfold set_cell
    by_cases hf : x = move.1 ∧ y = move.2
    · rw [if_pos hf, if_pos (Or.inl (Prod.ext_iff.mpr hf))]
    · rw [if_neg hf, if_neg ?_]
      rintro (rfl | h)
      · exact hf ⟨rfl, rfl⟩
      · exact hm h

/-! ### Counting lemmas -/

theorem countP_eq_add_of {α : Type} (p q r : α → Bool) :
    ∀ l : List α,
      (∀ a ∈ l, (p a = true ↔ (q a = true ∨ r a = true)) ∧
        ¬(q a = true ∧ r a = true)) →
      l.countP p = l.countP q + l.countP r := by
  intro l
  induction l with
  | nil => intro _; simp
  | cons a l ih =>
    intro h
    obtain ⟨h1, h2⟩ := h a (List.mem_cons_self a l)
    have hrec := ih fun b hb => h b (List.mem_cons_of_mem a hb)
    simp only [List.countP_cons, hrec]
    cases hq : q a <;> cases hr : r a
    · have hp : p a = false := by
        cases hp : p a
        · rfl
        · rw [hq, hr] at h1
          exact absurd (h1.mp hp) (by simp)
      simp [hp]
    · have hp : p a = true := h1.mpr (Or.inr hr)
      simp [hp]
      omega
    · have hp : p a = true := h1.mpr (Or.inl hq)
      simp [hp]
      omega
    · exact absurd ⟨hq, hr⟩ h2

theorem countP_eq_one_of_nodup {s : Move} :
    ∀ {l : List Move}, l.Nodup → s ∈ l →
      l.countP (fun a => decide (a = s)) = 1 := by
  intro l
  induction l with
  | nil => intro _ h; simp at h
  | cons a l ih =>
    intro hnd hmem
    obtain ⟨hna, hln⟩ := List.nodup_cons.mp hnd
    rw [List.countP_cons]
    rcases List.mem_cons.mp hmem with heq | hmem'
    · subst heq
      have h0 : l.countP (fun b => decide (b = s)) = 0 := by
        rw [List.countP_eq_zero]
        intro b hb
        simp only [decide_eq_true_eq]
        rintro rfl
        exact hna hb
      simp [h0]
    · rw [ih hln hmem']
      have hne : (decide (a = s)) = false := by
        simp only [decide_eq_false_iff_not]
        rintro rfl
        exact hna hmem'
      simp [hne]

theorem countP_mem_eq_length :
    ∀ (S l : List Move), l.Nodup → S.Nodup → (∀ a ∈ S, a ∈ l) →
      l.countP (fun a => decide (a ∈ S)) = S.length := by
  intro S
  induction S with
  | nil => intro l _ _ _; simp
  | cons s S ih =>
    intro l hl hS hsub
    have hs : s ∈ l := hsub s (List.mem_cons_self s S)
    obtain ⟨hsS, hSn⟩ := List.nodup_cons.mp hS
    rw [countP_eq_add_of (fun a => decide (a ∈ s :: S))
      (fun a => decide (a = s)) (fun a => decide (a ∈ S)) l ?_]
    · rw [countP_eq_one_of_nodup hl hs,
        ih l hl hSn fun a ha => hsub a (List.mem_cons_of_mem s ha)]
      simp only [List.length_cons]
      omega
    · intro a _
      constructor
      · simp only [decide_eq_true_eq, List.mem_cons]
      · simp only [decide_eq_true_eq, not_and]
        rintro rfl
        exact hsS

theorem all_coords_nodup : all_coords.Nodup := by decide

theorem mem_all_coords_iff {q : Move} :
    q ∈ all_coords ↔ on_board q.1 q.2 = true := by
  unfold all_coords coords on_board BOARD_SIZE
  simp only [List.mem_flatMap, List.mem_map, List.mem_range, decide_eq_true_eq,
    Int.ofNat_eq_coe]
  constructor
  · rintro ⟨x, ⟨n, hn, rfl⟩, y, ⟨m, hm, rfl⟩, rfl⟩
    refine ⟨?_, ?_, ?_, ?_⟩ <;> simp <;> omega
  · rintro ⟨h1, h2, h3, h4⟩
    refine ⟨q.1, ⟨q.1.toNat, by omega, by omega⟩,
      q.2, ⟨q.2.toNat, by omega, by omega⟩, rfl⟩

/-! ### Colour bookkeeping -/

theorem opponent_cases (player : Cell) :
    opponent player = BLACK ∨ opponent player = WHITE := by
  cases player <;> decide

theorem player_facts {player : Cell} (hp : player = BLACK ∨ player = WHITE) :
    player ≠ EMPTY ∧ opponent player ≠ player ∧ opponent player ≠ EMPTY := by
  rcases hp with rfl | rfl <;> decide

theorem valid_moves_pre {board : Board} {player : Cell} {m : Move}
    {flips : List Move} (h : (m, flips) ∈ valid_moves board player) :
    board m.1 m.2 = EMPTY ∧ flips ≠ [] ∧ flips.Nodup ∧ m ∉ flips ∧
      m ∈ all_coords ∧
      ∀ f ∈ flips, board f.1 f.2 = opponent player ∧ f ∈ all_coords := by
  obtain ⟨hmem, hE, hfe, hne⟩ := mem_valid_moves.mp h
  subst hfe
  refine ⟨hE, hne, cell_flips_nodup board player m.1 m.2,
    not_mem_cell_flips board player m.1 m.2, hmem, ?_⟩
  intro f hf
  obtain ⟨d, hd, hfd⟩ := mem_cell_flips.mp hf
  obtain ⟨k, hk, -, hob, hcell⟩ := dir_flips_mem hfd
  exact ⟨hcell, mem_all_coords_iff.mpr hob⟩

theorem make_move_countP_player {board : Board} {player : Cell} {m : Move}
    {flips : List Move} (h : (m, flips) ∈ valid_moves board player)
    (hp : player = BLACK ∨ player = WHITE) :
    all_coords.countP
        (fun q => decide (make_move board player m flips q.1 q.2 = player)) =
      all_coords.countP (fun q => decide (board q.1 q.2 = player)) +
        (1 + flips.length) := by
  obtain ⟨hE, hne, hnd, hnm, hmm, hflip⟩ := valid_moves_pre h
  obtain ⟨hpE, hopp, hoppE⟩ := player_facts hp
  have hS : (m :: flips).Nodup := List.nodup_cons.mpr ⟨hnm, hnd⟩
  have hsub : ∀ a ∈ m :: flips, a ∈ all_coords := by
    intro a ha
    rcases List.mem_cons.mp ha with rfl | ha'
    · exact hmm
    · exact (hflip a ha').2
  rw [countP_eq_add_of
    (fun q => decide (make_move board player m flips q.1 q.2 = player))
    (fun q => decide (board q.1 q.2 = player))
    (fun q => decide (q ∈ m :: flips)) all_coords ?_]
  · rw [countP_mem_eq_length (m :: flips) all_coords all_coords_nodup hS hsub]
    simp only [List.length_cons]
    omega
  · intro a _
    dsimp only
    rw [make_move_apply]
    simp only [decide_eq_true_eq, List.mem_cons]
    by_cases hc : a = m ∨ a ∈ flips
    · rw [if_pos (show (a.1, a.2) = m ∨ (a.1, a.2) ∈ flips from hc)]
      have hqf : board a.1 a.2 ≠ player := by
        rcases hc with rfl | hf
        · rw [hE]
          exact fun he => hpE he.symm
        · rw [(hflip a hf).1]
          exact hopp
      exact ⟨⟨fun _ => Or.inr hc, fun _ => rfl⟩, fun hq => hqf hq.1⟩
    · rw [if_neg (show ¬((a.1, a.2) = m ∨ (a.1, a.2) ∈ flips) from hc)]
      exact ⟨⟨Or.inl, fun hor => hor.resolve_right hc⟩, fun hq => hc hq.2⟩

theorem make_move_countP_opp {board : Board} {player : Cell} {m : Move}
    {flips : List Move} (h : (m, flips) ∈ valid_moves board player)
    (hp : player = BLACK ∨ player = WHITE) :
    all_coords.countP (fun q => decide (board q.1 q.2 = opponent player)) =
      all_coords.countP
        (fun q =>
          decide (make_move board player m flips q.1 q.2 = opponent player)) +
        flips.length := by
  obtain ⟨hE, hne, hnd, hnm, hmm, hflip⟩ := valid_moves_pre h
  obtain ⟨hpE, hopp, hoppE⟩ := player_facts hp
  have hsub : ∀ a ∈ flips, a ∈ all_coords := fun a ha => (hflip a ha).2
  rw [countP_eq_add_of
    (fun q => decide (board q.1 q.2 = opponent player))
    (fun q =>
      decide (make_move board player m flips q.1 q.2 = opponent player))
    (fun q => decide (q ∈ flips)) all_coords ?_]
  · rw [countP_mem_eq_length flips all_coords all_coords_nodup hnd hsub]
  · intro a _
    dsimp only
    rw [make_move_apply]
    simp only [decide_eq_true_eq]
    by_cases hcf : a ∈ flips
    · rw [if_pos (show (a.1, a.2) = m ∨ (a.1, a.2) ∈ flips from Or.inr hcf)]
      refine ⟨⟨fun _ => Or.inr hcf, fun _ => (hflip a hcf).1⟩, ?_⟩
      rintro ⟨hq, -⟩
      exact hopp hq.symm
    · by_cases hcm : a = m
      · subst hcm
        rw [if_pos (Or.inl rfl)]
        constructor
        · constructor
          · intro hbo
            exact absurd (hE ▸ hbo) (fun he => hoppE he.symm)
          · rintro (hq | hf)
            · exact absurd hq (fun he => hopp he.symm)
            · exact absurd hf hcf
        · rintro ⟨-, hf⟩
          exact hcf hf
      · rw [if_neg (show ¬((a.1, a.2) = m ∨ (a.1, a.2) ∈ flips) from by
          rintro (hq | hf)
          · exact hcm hq
          · exact hcf hf)]
        exact ⟨⟨Or.inl, fun hor => hor.resolve_right hcf⟩, fun hq => hcf hq.2⟩

theorem total_discs_eq (board : Board) :
    total_discs board =
      all_coords.countP fun q => decide (board q.1 q.2 ≠ EMPTY) := by
  unfold total_discs scores
  dsimp only
  rw [countP_eq_add_of (fun q => decide (board q.1 q.2 ≠ EMPTY))
    (fun q => decide (board q.1 q.2 = BLACK))
    (fun q => decide (board q.1 q.2 = WHITE)) all_coords ?_]
  intro a _
  dsimp only
  cases board a.1 a.2 <;> simp [EMPTY, BLACK, WHITE]

theorem total_discs_le (board : Board) : total_discs board ≤ 64 := by
  rw [total_discs_eq]
  have h1 := List.countP_le_length
    (p := fun q : Move => decide (board q.1 q.2 ≠ EMPTY)) (l := all_coords)
  have h2 : all_coords.length = 64 := by decide
  omega

theorem make_move_total_discs {board : Board} {player : Cell} {m : Move}
    {flips : List Move} (h : (m, flips) ∈ valid_moves board player)
    (hp : player = BLACK ∨ player = WHITE) :
    total_discs (make_move board player m flips) = total_discs board + 1 := by
  have hA := make_move_countP_player h hp
  have hB := make_move_countP_opp h hp
  unfold total_discs scores
  dsimp only
  rcases hp with rfl | rfl
  · have hoppe : opponent BLACK = WHITE := rfl
    rw [hoppe] at hB
    omega
  · have hoppe : opponent WHITE = BLACK := rfl
    rw [hoppe] at hB
    omega

/-! ### The turn loop -/

theorem reachable_player {s : GameState} (h : Reachable s) :
    s.player = BLACK ∨ s.player = WHITE := by
  unfold Reachable at h
  induction h with
  | refl => exact Or.inl rfl
  | tail hr hs ih =>
    cases hs with
    | pass h1 h2 h3 => exact opponent_cases _
    | gameOver h1 h2 h3 => exact ih
    | move m flips h1 h2 => exact opponent_cases _

theorem step_total_discs_mono {s t : GameState}
    (hp : s.player = BLACK ∨ s.player = WHITE) (h : Step s t) :
    total_discs s.board ≤ total_discs t.board := by
  cases h with
  | pass h1 h2 h3 => exact le_refl _
  | gameOver h1 h2 h3 => exact le_refl _
  | move m flips h1 h2 =>
    have heq := make_move_total_discs h2 hp
    show total_discs s.board ≤ total_discs (make_move s.board s.player m flips)
    omega

/-! ### Properties of the fold computing the maximum flip count -/

theorem foldl_max_le :
    ∀ (l : List Nat) (a : Nat),
      a ≤ l.foldl max a ∧ ∀ x ∈ l, x ≤ l.foldl max a := by
  intro l
  induction l with
  | nil => intro a; exact ⟨le_refl a, by simp⟩
  | cons b l ih =>
    intro a
    obtain ⟨h1, h2⟩ := ih (max a b)
    rw [List.foldl_cons]
    refine ⟨le_trans (le_max_left a b) h1, ?_⟩
    intro x hx
    rcases List.mem_cons.mp hx with rfl | hx'
    · exact le_trans (le_max_right a x) h1
    · exact h2 x hx'

theorem foldl_max_mem :
    ∀ (l : List Nat) (a : Nat), l.foldl max a = a ∨ l.foldl max a ∈ l := by
  intro l
  induction l with
  | nil => intro a; exact Or.inl rfl
  | cons b l ih =>
    intro a
    rw [List.foldl_cons]
    rcases ih (max a b) with h | h
    · rcases Nat.le_total a b with hab | hba
      · right
        rw [h, Nat.max_eq_right hab]
        exact List.mem_cons_self b l
      · left
        rw [h]
        exact Nat.max_eq_left hba
    · right
      exact List.mem_cons_of_mem b h

/-! ### Claim theorems -/

/-- C1: for every board and player, every move in the map returned by
`valid_moves` is on an Empty cell of the board, and its flip set is
non-empty and consists solely of opponent-coloured cells lying on a straight
line (one of the eight ray directions) from the move cell, the line being
terminated by a disc of the player's own colour (bracketing). -/
theorem valid_moves_bracketing (board : Board) (player : Cell) (m : Move)
    (flips : List Move) (h : (m, flips) ∈ valid_moves board player) :
    board m.1 m.2 = EMPTY ∧ flips ≠ [] ∧
      ∀ f ∈ flips, board f.1 f.2 = opponent player ∧
        BracketedFlip board player m f := by
  obtain ⟨hmem, hE, hfe, hne⟩ := mem_valid_moves.mp h
  subst hfe
  refine ⟨hE, hne, ?_⟩
  intro f hf
  obtain ⟨d, hd, hfd⟩ := mem_cell_flips.mp hf
  obtain ⟨k, hk, -, hob, hcell⟩ := dir_flips_mem hfd
  exact ⟨hcell, dir_flips_bracketed hd hfd⟩

/-- Witness for C1 at the initial board: Black's legal move (2,3) with flip
list [(3,3)]. -/
theorem valid_moves_bracketing_witness :
    ((2, 3), [((3 : Int), (3 : Int))]) ∈ valid_moves init_board BLACK ∧
      (init_board 2 3 = EMPTY ∧ ([((3 : Int), (3 : Int))] : List Move) ≠ [] ∧
        ∀ f ∈ ([((3 : Int), (3 : Int))] : List Move),
          init_board f.1 f.2 = opponent BLACK ∧
            BracketedFlip init_board BLACK (2, 3) f) :=
  ⟨by decide,
    valid_moves_bracketing init_board BLACK (2, 3) [(3, 3)] (by decide)⟩

/-- C2 counterexample: for the legal pair ((2,3), [(3,3)]) of the initial
board, the total disc count rises from 4 to 5, i.e. by 1 and not by
1 + len(flips) = 2. -/
theorem make_move_total_counterexample :
    ((2, 3), [((3 : Int), (3 : Int))]) ∈ valid_moves init_board BLACK ∧
      total_discs init_board = 4 ∧
      total_discs (make_move init_board BLACK (2, 3) [(3, 3)]) = 5 ∧
      total_discs (make_move init_board BLACK (2, 3) [(3, 3)]) ≠
        total_discs init_board +
          (1 + ([((3 : Int), (3 : Int))] : List Move).length) := by
  decide

/-- C2 (amended): for every move/flips pair returned together by
`valid_moves`, after `make_move` the move cell and every flipped cell hold
the player's colour, the PLAYER's disc count increases by exactly
1 + len(flips), and the total disc count of the board increases by
exactly 1. -/
theorem make_move_scores_amended (board : Board) (player : Cell) (m : Move)
    (flips : List Move) (h : (m, flips) ∈ valid_moves board player)
    (hp : player = BLACK ∨ player = WHITE) :
    make_move board player m flips m.1 m.2 = player ∧
      (∀ f ∈ flips, make_move board player m flips f.1 f.2 = player) ∧
      (player = BLACK →
        (scores (make_move board player m flips)).1 =
          (scores board).1 + (1 + flips.length)) ∧
      (player = WHITE →
        (scores (make_move board player m flips)).2 =
          (scores board).2 + (1 + flips.length)) ∧
      total_discs (make_move board player m flips) =
        total_discs board + 1 := by
  refine ⟨?_, ?_, ?_, ?_, make_move_total_discs h hp⟩
  · rw [make_move_apply, if_pos (Or.inl rfl)]
  · intro f hf
    rw [make_move_apply, if_pos (Or.inr (show (f.1, f.2) ∈ flips from hf))]
  · rintro rfl
    exact make_move_countP_player h hp
  · rintro rfl
    exact make_move_countP_player h hp

/-- Witness for C2 (amended) at the initial board. -/
theorem make_move_scores_amended_witness :
    (((2, 3), [((3 : Int), (3 : Int))]) ∈ valid_moves init_board BLACK ∧
        (BLACK = BLACK ∨ BLACK = WHITE)) ∧
      (scores (make_move init_board BLACK (2, 3) [(3, 3)])).1 =
          (scores init_board).1 +
            (1 + ([((3 : Int), (3 : Int))] : List Move).length) ∧
        total_discs (make_move init_board BLACK (2, 3) [(3, 3)]) =
          total_discs init_board + 1 :=
  ⟨⟨by decide, Or.inl rfl⟩,
    (make_move_scores_amended init_board BLACK (2, 3) [(3, 3)] (by decide)
        (Or.inl rfl)).2.2.1 rfl,
    (make_move_scores_amended init_board BLACK (2, 3) [(3, 3)] (by decide)
        (Or.inl rfl)).2.2.2.2⟩

/-- C3: in the turn state machine, a step ends the game exactly when the
current legal-move map is empty and the consecutive-pass counter already
stands at 1 (i.e. the second consecutive empty map, one per side); a single
empty map passes the turn to the opponent without any board change and
increments the counter; the counter is reset to zero exactly when a
non-empty map is encountered. -/
theorem step_pass_gameover (s t : GameState) (h : Step s t) :
    (t.over = true ↔ valid_moves s.board s.player = [] ∧ s.skipped = 1) ∧
      (valid_moves s.board s.player = [] →
        t.board = s.board ∧ t.skipped = s.skipped + 1 ∧
          (t.over = false → t.player = opponent s.player)) ∧
      (valid_moves s.board s.player ≠ [] → t.skipped = 0) := by
  cases h with
  | pass h1 h2 h3 =>
    refine ⟨⟨?_, ?_⟩, fun _ => ⟨rfl, rfl, fun _ => rfl⟩,
      fun hne => absurd h2 hne⟩
    · intro hov
      simp at hov
    · rintro ⟨-, hsk⟩
      exact absurd (by omega : s.skipped + 1 = 2) h3
  | gameOver h1 h2 h3 =>
    refine ⟨⟨fun _ => ⟨h2, by omega⟩, fun _ => rfl⟩,
      fun _ => ⟨rfl, rfl, fun hov => ?_⟩, fun hne => absurd h2 hne⟩
    simp at hov
  | move m flips h1 h2 =>
    refine ⟨⟨?_, ?_⟩, fun hemp => absurd (hemp ▸ h2) (List.not_mem_nil _),
      fun _ => rfl⟩
    · intro hov
      simp at hov
    · rintro ⟨hemp, -⟩
      exact absurd (hemp ▸ h2) (List.not_mem_nil _)

/-- Witness for C3: the concrete move step from the initial state. -/
theorem step_pass_gameover_witness :
    Step init_state
        ⟨make_move init_board BLACK (2, 3) [(3, 3)], opponent BLACK, 0,
          false⟩ ∧
      (valid_moves init_state.board init_state.player ≠ [] →
        (⟨make_move init_board BLACK (2, 3) [(3, 3)], opponent BLACK, 0,
            false⟩ : GameState).skipped = 0) :=
  have hstep : Step init_state
      ⟨make_move init_board BLACK (2, 3) [(3, 3)], opponent BLACK, 0,
        false⟩ :=
    Step.move init_state (2, 3) [(3, 3)] rfl (by decide)
  ⟨hstep, (step_pass_gameover _ _ hstep).2.2⟩

/-- C9: `make_move` changes only the move cell and the cells listed in
`flips`; every other cell is unchanged. -/
theorem make_move_frame (board : Board) (player : Cell) (move : Move)
    (flips : List Move) (x y : Int) (h1 : (x, y) ≠ move)
    (h2 : (x, y) ∉ flips) :
    make_move board player move flips x y = board x y := by
  rw [make_move_apply, if_neg ?_]
  rintro (hc | hc)
  · exact h1 hc
  · exact h2 hc

/-- Witness for C9 at the untouched corner (0,0). -/
theorem make_move_frame_witness :
    (((0 : Int), (0 : Int)) ≠ ((2, 3) : Move) ∧
        ((0 : Int), (0 : Int)) ∉ ([((3 : Int), (3 : Int))] : List Move)) ∧
      make_move init_board BLACK (2, 3) [(3, 3)] 0 0 = init_board 0 0 :=
  ⟨⟨by decide, by decide⟩,
    make_move_frame init_board BLACK (2, 3) [(3, 3)] 0 0 (by decide)
      (by decide)⟩

/-- C10: in every flip set returned by `valid_moves` the coordinates are
pairwise distinct and none equals the move cell, so the length of the flip
list equals the number of distinct cells changed besides the move cell. -/
theorem valid_moves_flips_nodup (board : Board) (player : Cell) (m : Move)
    (flips : List Move) (h : (m, flips) ∈ valid_moves board player) :
    flips.Nodup ∧ m ∉ flips ∧ flips.toFinset.card = flips.length := by
  obtain ⟨hmem, hE, hfe, hne⟩ := mem_valid_moves.mp h
  subst hfe
  have hnd := cell_flips_nodup board player m.1 m.2
  exact ⟨hnd, not_mem_cell_flips board player m.1 m.2,
    List.toFinset_card_of_nodup hnd⟩

/-- Witness for C10 at the initial board. -/
theorem valid_moves_flips_nodup_witness :
    ((2, 3), [((3 : Int), (3 : Int))]) ∈ valid_moves init_board BLACK ∧
      (([((3 : Int), (3 : Int))] : List Move).Nodup ∧
        ((2, 3) : Move) ∉ ([((3 : Int), (3 : Int))] : List Move) ∧
        ([((3 : Int), (3 : Int))] : List Move).toFinset.card =
          ([((3 : Int), (3 : Int))] : List Move).length) :=
  ⟨by decide,
    valid_moves_flips_nodup init_board BLACK (2, 3) [(3, 3)] (by decide)⟩

/-- C4: for every non-empty legal-move map, `greedy_choice` returns (for
whatever draw `k` the random choice makes) a move that is a key of the map
and whose flip-list length equals the maximum flip-list length over all
moves of the map; for the empty map it returns the no-move sentinel
`none`. -/
theorem greedy_choice_spec (moves : List (Move × List Move)) (k : Nat) :
    (moves = [] → greedy_choice moves k = none) ∧
      (moves ≠ [] →
        ∃ m fl, greedy_choice moves k = some m ∧ (m, fl) ∈ moves ∧
          ∀ m' fl', (m', fl') ∈ moves → fl'.length ≤ fl.length) := by
  constructor
  · rintro rfl
    rfl
  · intro hne
    have hex : ∃ p, p ∈ moves ∧
        p.2.length = (moves.map fun p => p.2.length).foldl max 0 := by
      rcases foldl_max_mem (moves.map fun p => p.2.length) 0 with h0 | hmem
      · obtain ⟨p₀, hp₀⟩ := List.exists_mem_of_ne_nil moves hne
        have hle := (foldl_max_le (moves.map fun p => p.2.length) 0).2
          p₀.2.length (List.mem_map_of_mem _ hp₀)
        exact ⟨p₀, hp₀, by omega⟩
      · obtain ⟨p₀, hp₀, hlen⟩ := List.mem_map.mp hmem
        exact ⟨p₀, hp₀, hlen⟩
    set mx := (moves.map fun p => p.2.length).foldl max 0 with hmx
    set bm := (moves.filter fun p => decide (p.2.length = mx)).map Prod.fst
      with hbm
    obtain ⟨p₀, hp₀, hp₀len⟩ := hex
    have hfil : p₀ ∈ moves.filter fun p => decide (p.2.length = mx) :=
      List.mem_filter.mpr ⟨hp₀, by simp [hp₀len]⟩
    have hp₀bm : p₀.1 ∈ bm := by
      rw [hbm]
      exact List.mem_map_of_mem _ hfil
    have hbmne : bm ≠ [] := List.ne_nil_of_mem hp₀bm
    have hpos : 0 < bm.length := List.length_pos.mpr hbmne
    have hlt : k % bm.length < bm.length := Nat.mod_lt _ hpos
    have hget : bm.get? (k % bm.length) =
        some (bm.get ⟨k % bm.length, hlt⟩) := List.get?_eq_get hlt
    have hmem : bm.get ⟨k % bm.length, hlt⟩ ∈
        (moves.filter fun p => decide (p.2.length = mx)).map Prod.fst :=
      List.get_mem bm _ _
    obtain ⟨p, hpfil, hp1⟩ := List.mem_map.mp hmem
    obtain ⟨hpmoves, hplen⟩ := List.mem_filter.mp hpfil
    refine ⟨bm.get ⟨k % bm.length, hlt⟩, p.2, ?_, ?_, ?_⟩
    · unfold greedy_choice
      rw [if_neg (by simpa using hne)]
      dsimp only
      rw [← hmx, ← hbm]
      exact hget
    · rw [← hp1]
      exact hpmoves
    · intro m' fl' hm'
      have hle := (foldl_max_le (moves.map fun p => p.2.length) 0).2
        fl'.length (List.mem_map_of_mem _ hm')
      have hpl : p.2.length = mx := by simpa using hplen
      rw [hpl, hmx]
      exact hle

/-- Witness for C4 at the initial board with draw 0. -/
theorem greedy_choice_spec_witness :
    valid_moves init_board BLACK ≠ [] ∧
      ∃ m fl, greedy_choice (valid_moves init_board BLACK) 0 = some m ∧
        (m, fl) ∈ valid_moves init_board BLACK ∧
        ∀ m' fl', (m', fl') ∈ valid_moves init_board BLACK →
          fl'.length ≤ fl.length :=
  ⟨by decide,
    (greedy_choice_spec (valid_moves init_board BLACK) 0).2 (by decide)⟩

/-- C5 counterexample: on the board produced by `init_board`, the cell
(2,4) is NOT a key of Black's legal-move map, and the cell (3,4) holds a
Black disc, not a White one. -/
theorem first_move_scenario_counterexample :
    ((2, 4) : Move) ∉ (valid_moves init_board BLACK).map Prod.fst ∧
      init_board 3 4 = BLACK ∧ init_board 3 4 ≠ WHITE := by
  decide

/-- C5 (amended): on the starting board, the move (2,3) (0-indexed row 2,
column 3) is a legal move for Black whose application flips exactly one
White disc — the seed White disc at (3,3) — to Black, making the Black
count 4 and the White count 1. -/
theorem first_move_scenario :
    ((2, 3), [((3 : Int), (3 : Int))]) ∈ valid_moves init_board BLACK ∧
      init_board 3 3 = WHITE ∧
      ([((3 : Int), (3 : Int))] : List Move).length = 1 ∧
      make_move init_board BLACK (2, 3) [(3, 3)] 3 3 = BLACK ∧
      scores (make_move init_board BLACK (2, 3) [(3, 3)]) = (4, 1) := by
  decide

/-- C6: `init_board` contains exactly 2 Black and 2 White discs, on the
four centre cells (rows 3-4, columns 3-4) with each colour occupying one
diagonal of that block, and every other cell Empty. -/
theorem init_board_spec :
    scores init_board = (2, 2) ∧
      init_board 3 4 = BLACK ∧ init_board 4 3 = BLACK ∧
      init_board 3 3 = WHITE ∧ init_board 4 4 = WHITE ∧
      ∀ x y : Int,
        (x, y) ∉ ([(3, 3), (3, 4), (4, 3), (4, 4)] : List Move) →
        init_board x y = EMPTY := by
  refine ⟨by decide, by decide, by decide, by decide, by decide, ?_⟩
  intro x y h
  simp only [List.mem_cons, List.not_mem_nil, or_false, not_or] at h
  obtain ⟨h1, h2, h3, h4⟩ := h
  simp only [init_board]
  rw [if_neg fun hc : x = 3 ∧ y = 3 => h1 (Prod.ext_iff.mpr hc),
    if_neg fun hc : x = 4 ∧ y = 4 => h4 (Prod.ext_iff.mpr hc),
    if_neg fun hc : x = 3 ∧ y = 4 => h2 (Prod.ext_iff.mpr hc),
    if_neg fun hc : x = 4 ∧ y = 3 => h3 (Prod.ext_iff.mpr hc)]

/-- Witness for C6's all-other-cells-Empty clause at the corner (0,0). -/
theorem init_board_spec_witness :
    (((0 : Int), (0 : Int)) : Move) ∉
        ([(3, 3), (3, 4), (4, 3), (4, 4)] : List Move) ∧
      init_board 0 0 = EMPTY :=
  ⟨by decide, init_board_spec.2.2.2.2.2 0 0 (by decide)⟩

/-- C7: along every step of the turn loop taken from a state reachable from
the initial state, the total number of discs on the board never decreases,
and it never exceeds 64. -/
theorem game_discs_monotone (s t : GameState) (h1 : Reachable s)
    (h2 : Step s t) :
    total_discs s.board ≤ total_discs t.board ∧
      total_discs t.board ≤ 64 :=
  ⟨step_total_discs_mono (reachable_player h1) h2, total_discs_le t.board⟩

/-- Witness for C7: the initial state and Black's first move. -/
theorem game_discs_monotone_witness :
    Reachable init_state ∧
      Step init_state
        ⟨make_move init_board BLACK (2, 3) [(3, 3)], opponent BLACK, 0,
          false⟩ ∧
      (total_discs init_state.board ≤
          total_discs (make_move init_board BLACK (2, 3) [(3, 3)]) ∧
        total_discs (make_move init_board BLACK (2, 3) [(3, 3)]) ≤ 64) :=
  have hstep : Step init_state
      ⟨make_move init_board BLACK (2, 3) [(3, 3)], opponent BLACK, 0,
        false⟩ :=
    Step.move init_state (2, 3) [(3, 3)] rfl (by decide)
  ⟨Relation.ReflTransGen.refl, hstep,
    game_discs_monotone _ _ Relation.ReflTransGen.refl hstep⟩

/-- Specification-side count for C8: the number of board cells (coordinates
in [0,8) x [0,8)) holding a Black disc. -/
def blackCount (board : Board) : Nat :=
  ((Finset.Icc (0 : Int) 7 ×ˢ Finset.Icc (0 : Int) 7).filter
    fun q => board q.1 q.2 = BLACK).card

/-- Specification-side count for C8: the number of board cells holding a
White disc. -/
def whiteCount (board : Board) : Nat :=
  ((Finset.Icc (0 : Int) 7 ×ˢ Finset.Icc (0 : Int) 7).filter
    fun q => board q.1 q.2 = WHITE).card

theorem countP_cells_eq_card (p : Move → Prop) [DecidablePred p] :
    all_coords.countP (fun q => decide (p q)) =
      ((Finset.Icc (0 : Int) 7 ×ˢ Finset.Icc (0 : Int) 7).filter p).card := by
  have hval : (Finset.Icc (0 : Int) 7 ×ˢ Finset.Icc (0 : Int) 7).val =
      (all_coords : Multiset Move) := by decide
  rw [Finset.card_def, Finset.filter_val, hval, Multiset.filter_coe,
    Multiset.coe_card, ← List.countP_eq_length_filter]

/-- C8: for every board, `scores` returns the pair (blackCount, whiteCount)
where blackCount is the number of cells holding Black and whiteCount the
number of cells holding White (a pure function of the board). -/
theorem scores_eq_cell_counts (board : Board) :
    scores board = (blackCount board, whiteCount board) := by
  unfold scores blackCount whiteCount
  rw [Prod.mk.injEq]
  exact ⟨countP_cells_eq_card fun q => board q.1 q.2 = BLACK,
    countP_cells_eq_card fun q => board q.1 q.2 = WHITE⟩

